import Mathlib

/-!
Verification of the proximity-tool geometric reconciliation pipeline.

The pipeline turns possibly-overlapping isochrone polygons (one per point of
interest and travel-time band) into a partition of an area of interest into
disjoint regions, then aggregates raster population counts over the regions.

Geometry is shallowly embedded: a polygon is a finite set of grid cells
(`Finset (Int × Int)`), union / difference / intersection are the Finset
operations and area is cardinality.  The pipeline step functions
(`dissolve_iso`, `difference_iso`, `fill_aoi`, `add_population_data`,
`run_analysis`, `prep_user_poi` / `create_aoi_gpd` via
`normalizeCollection`) are modelled from the specification, since the
repository snapshot only contains their call sites.
-/

namespace Proximity

/-- A grid cell: the atom of our shallow polygon model. -/
abbrev Cell := Int × Int

/-- A polygon (possibly multi-part): a finite set of cells.  Area is
cardinality, boolean operations are the Finset operations. -/
abbrev Region := Finset Cell

/-- An isochrone ring: one polygon associated with exactly one POI and one
travel-time band index. -/
structure IsoRing where
  poi : Nat
  band : Nat
  geom : Region
deriving DecidableEq

/-- A band region: the dissolved union of all isochrone rings of one POI and
one band.  Produced by the Band Dissolver, consumed by the Overlap Resolver. -/
structure BandRegion where
  poi : Nat
  band : Nat
  geom : Region
deriving DecidableEq

/-- The tag of a resolved region: either a (POI identity, band index) pair or
the sentinel "uncovered" tag used by the Gap Filler. -/
inductive Tag where
  | pair (poi : Nat) (band : Nat)
  | uncovered
deriving DecidableEq

/-- A resolved region: a polygon tagged with (POI, band) or "uncovered". -/
structure ResolvedRegion where
  tag : Tag
  geom : Region
deriving DecidableEq

/-- Union of a list of polygons (the "dissolve" operation). -/
def unionGeoms (l : List Region) : Region := l.foldr (fun g acc => g ∪ acc) ∅

/-- Union of the geometries of a list of resolved regions. -/
def unionOut (l : List ResolvedRegion) : Region :=
  l.foldr (fun r acc => r.geom ∪ acc) ∅

/-- Ordering of (POI, band) pairs by band index; used with a stable sort so
that same-band ties keep insertion order. -/
def bandLE (x y : BandRegion) : Prop := x.band ≤ y.band

instance : DecidableRel bandLE := fun x y => Nat.decLe x.band y.band

instance : IsTotal BandRegion bandLE := ⟨fun x y => Nat.le_total x.band y.band⟩

instance : IsTrans BandRegion bandLE := ⟨fun _ _ _ h1 h2 => Nat.le_trans h1 h2⟩

/-- Modelled from the spec: the Overlap Resolver's global ordering step
("Order all (POI, band) pairs globally by band index ascending ...; within the
same band index, order is insertion order (stable ...)").  A stable insertion
sort by band index. -/
def orderPairs (l : List BandRegion) : List BandRegion := l.insertionSort bandLE

/-- Modelled from the spec: the Overlap Resolver's sequential
subtract-and-accept loop, with the "accepted so far" geometry threaded as an
explicit accumulator (design note: "represent the 'accepted so far' geometry
as a single owned accumulator value passed explicitly").  Each pair's band
region minus the accumulator is accepted when non-empty. -/
def resolveStep (acc : Region) : List BandRegion → List ResolvedRegion
  | [] => []
  | p :: rest =>
    let rem := p.geom \ acc
    if rem = ∅ then resolveStep acc rest
    else ⟨Tag.pair p.poi p.band, rem⟩ :: resolveStep (acc ∪ rem) rest

/-- Modelled from the spec: `difference_iso`, the Overlap Resolver (its source
file is missing from the snapshot; only the notebook call site exists).
Orders all (POI, band) pairs by band index ascending with a stable tie-break,
then accepts each pair's band region minus everything accepted before. -/
def difference_iso (l : List BandRegion) : List ResolvedRegion :=
  resolveStep ∅ (orderPairs l)

/-- The Overlap Resolver loop exactly as the spec words it: "For the current
pair's Band Region, subtract the union of all previously *accepted*
(already-finalized) regions' geometry.  The remainder (if non-empty) becomes
the accepted Resolved Region for this pair."  `prev` is the list of previously
accepted regions. -/
def resolveSpecAux (prev : List ResolvedRegion) : List BandRegion → List ResolvedRegion
  | [] => []
  | p :: rest =>
    let rem := p.geom \ unionOut prev
    if rem = ∅ then resolveSpecAux prev rest
    else ⟨Tag.pair p.poi p.band, rem⟩ ::
      resolveSpecAux (prev ++ [⟨Tag.pair p.poi p.band, rem⟩]) rest

/-- Modelled from the spec: `fill_aoi`, the Gap Filler (source file missing
from the snapshot).  "Input: all Resolved Regions plus the AOI boundary.
Computes `AOI − union(all Resolved Regions)`.  If non-empty, this residual
becomes one additional Resolved Region tagged 'uncovered' ...  Guarantees the
invariant that the final region set exactly tiles the AOI."  To guarantee the
tiling invariant the finalized regions are clipped to the AOI (the analysis is
"clipped to an area of interest"). -/
def fill_aoi (resolved : List ResolvedRegion) (aoi : Region) : List ResolvedRegion :=
  let residual := aoi \ unionOut resolved
  let clipped := resolved.map (fun r => ⟨r.tag, r.geom ∩ aoi⟩)
  if residual = ∅ then clipped else clipped ++ [⟨Tag.uncovered, residual⟩]

/-- First occurrences of keys in order of first appearance (insertion order). -/
def firstKeysAux (seen : List (Nat × Nat)) : List (Nat × Nat) → List (Nat × Nat)
  | [] => []
  | k :: rest =>
    if k ∈ seen then firstKeysAux seen rest else k :: firstKeysAux (k :: seen) rest

/-- Modelled from the spec: `get_isochrones` (source file missing from the
snapshot).  The isochrone source is a collaborator: "given a POI coordinate
and an ordered list of travel-time thresholds, returns one polygon (or
multi-polygon) per threshold".  `fetch` is that collaborator, returning the
(band, polygon) list for a POI. -/
def get_isochrones (pois : List Nat) (fetch : Nat → List (Nat × Region)) : List IsoRing :=
  pois.flatMap (fun p => (fetch p).map (fun br => ⟨p, br.1, br.2⟩))

/-- Modelled from the spec: `dissolve_iso`, the Band Dissolver (source file
missing from the snapshot).  "for each band independently, compute the
geometric union of all ring parts for that POI, yielding one Band Region per
(POI, band)."  Pairs appear in insertion order of their first ring. -/
def dissolve_iso (rings : List IsoRing) : List BandRegion :=
  (firstKeysAux [] (rings.map (fun r => (r.poi, r.band)))).map
    (fun k => ⟨k.1, k.2,
      unionGeoms ((rings.filter (fun r => r.poi = k.1 ∧ r.band = k.2)).map IsoRing.geom)⟩)

/-! ## Population Aggregator -/

/-- A population raster: each cell carries a numeric value or the no-data
sentinel (`none`). -/
def Raster := Cell → Option Nat

/-- Error kind of the Population Aggregator: raster missing or corrupt for a
requested category. -/
inductive PopError where
  | PopulationDataError (cat : Nat)
deriving DecidableEq

/-- A raster folder: per-category rasters keyed by category label.  A key that
is absent models a missing raster; a key mapped to `none` models a corrupt
raster. -/
def RasterFolder := List (Nat × Option Raster)

/-- The category key of the aggregate (total-population) raster. -/
def aggKey : Nat := 0

/-- Loading a category raster from the folder fails with
`PopulationDataError` exactly when the raster is missing or corrupt. -/
def loadRaster (folder : RasterFolder) (cat : Nat) : Except PopError Raster :=
  match List.lookup cat folder with
  | some (some r) => .ok r
  | _ => .error (.PopulationDataError cat)

/-- Zonal sum of a raster over a region.  No-data cells contribute nothing
(they are excluded from the sum). -/
def popSum (r : Raster) (g : Region) : Nat := g.sum (fun c => (r c).getD 0)

/-- Per-category zonal total, `none` ("unavailable") when the raster for that
category is missing or corrupt. -/
def catTotal (folder : RasterFolder) (cat : Nat) (g : Region) : Option Nat :=
  match loadRaster folder cat with
  | .ok r => some (popSum r g)
  | .error _ => none

/-- The population summary of one resolved region: the region tag and
geometry, the aggregate total, the per-category totals ("unavailable" entries
are `none`), and the computed delta between the aggregate total and the sum
of per-category totals (`none` when any of them is unavailable). -/
structure Summary where
  tag : Tag
  geom : Region
  total : Option Nat
  perCat : List (Nat × Option Nat)
  delta : Option Int
deriving DecidableEq

/-- Modelled from the spec: `add_population_data`, the Population Aggregator
(source file missing from the snapshot).  For each region it computes the
aggregate zonal total and, per requested category, the category zonal total;
a missing/corrupt raster degrades that entry to "unavailable" (`none`) and
processing of the other regions continues.  The consistency of the sum of
disaggregated totals with the aggregate total is "not treated as an error,
reported as a computed delta". -/
def add_population_data (regions : List ResolvedRegion) (folder : RasterFolder)
    (cats : List Nat) : List Summary :=
  regions.map (fun reg =>
    let tot := catTotal folder aggKey reg.geom
    let per := cats.map (fun k => (k, catTotal folder k reg.geom))
    let delta : Option Int :=
      match tot with
      | some t =>
        if per.all (fun kv => kv.2.isSome) then
          some ((t : Int) - ((per.map (fun kv => ((kv.2.getD 0 : Nat) : Int))).sum))
        else none
      | none => none
    ⟨reg.tag, reg.geom, tot, per, delta⟩)

/-- Modelled from the spec: the documented population tolerance ε, "e.g. 1%
of the aggregate". -/
def popTolerance (aggregate : Nat) : Nat := aggregate / 100

/-! ## Geometry Normalizer -/

/-- A coordinate reference system: geographic (unprojected, angular units) or
projected (linear units). -/
inductive CRS where
  | geographic (code : Nat)
  | projected (code : Nat)
deriving DecidableEq

/-- Whether a CRS is projected (linear units, suitable for centroid and area
arithmetic). -/
def CRS.isProjected : CRS → Bool
  | .geographic _ => false
  | .projected _ => true

/-- A raw input geometry collection: an optional declared coordinate
reference, the member polygons, and whether the collection is
self-intersecting beyond repair. -/
structure GeomCollection where
  crs : Option CRS
  geoms : List Region
  irreparable : Bool
deriving DecidableEq

/-- Error kind of the Geometry Normalizer. -/
inductive GeomError where
  | InvalidGeometryError
deriving DecidableEq

/-- The single working projected coordinate system every input is reprojected
to (an equal-area projection in the real tool). -/
def workingCRS : CRS := .projected 6933

/-- A geometry collection is invalid when it is empty, has an empty member,
is self-intersecting beyond repair, or has no declared coordinate reference. -/
def invalidGeom (g : GeomCollection) : Bool :=
  g.geoms.isEmpty || g.geoms.any (fun r => r = ∅) || g.irreparable || g.crs.isNone

/-- A normalized geometry collection: a definite CRS and the member polygons. -/
structure NormCollection where
  crs : CRS
  geoms : List Region
deriving DecidableEq

/-- Modelled from the spec: the Geometry Normalizer behind `prep_user_poi`
and `create_aoi_gpd` (source file missing from the snapshot).  "reprojects
both to a single working projected coordinate system ... Fails with
`InvalidGeometryError` if a geometry is empty, self-intersecting beyond
repair, or missing a coordinate reference.  Side effect: none beyond
producing reprojected copies; never mutates input."  A pure function
producing a new collection in the working CRS. -/
def normalizeCollection (g : GeomCollection) : Except GeomError NormCollection :=
  if invalidGeom g then .error .InvalidGeometryError
  else .ok ⟨workingCRS, g.geoms⟩

/-- Modelled from the spec: `prep_user_poi` normalizes the POI collection. -/
def prep_user_poi (poi : GeomCollection) : Except GeomError NormCollection :=
  normalizeCollection poi

/-- Modelled from the spec: `create_aoi_gpd` normalizes the AOI collection. -/
def create_aoi_gpd (aoi : GeomCollection) : Except GeomError NormCollection :=
  normalizeCollection aoi

/-! ## Whole-pipeline entry point -/

/-- Modelled from the spec and the notebook: `run_analysis` runs the whole
computation in one function: fetch isochrones, dissolve per band, remove
overlaps, fill to the AOI, and (when `addPop`) add population data. -/
def run_analysis (pois : List Nat) (fetch : Nat → List (Nat × Region)) (aoi : Region)
    (addPop : Bool) (folder : RasterFolder) (cats : List Nat) : List Summary :=
  let allIsos := get_isochrones pois fetch
  let dissIsoc := dissolve_iso allIsos
  let diffIsoc := difference_iso dissIsoc
  let filled := fill_aoi diffIsoc aoi
  if addPop then add_population_data filled folder cats
  else filled.map (fun r => ⟨r.tag, r.geom, none, [], none⟩)

/-! ## Basic lemmas about unions -/

theorem foldr_union_init (l : List ResolvedRegion) (s : Region) :
    l.foldr (fun r acc => r.geom ∪ acc) s = unionOut l ∪ s := by
  induction l with
  | nil => simp [unionOut]
  | cons r t ih => simp [unionOut, ih, Finset.union_assoc]

theorem unionOut_append (a b : List ResolvedRegion) :
    unionOut (a ++ b) = unionOut a ∪ unionOut b := by
  unfold unionOut
  rw [List.foldr_append, foldr_union_init]
  rfl

theorem unionOut_concat (prev : List ResolvedRegion) (r : ResolvedRegion) :
    unionOut (prev ++ [r]) = unionOut prev ∪ r.geom := by
  rw [unionOut_append]
  simp [unionOut]

theorem mem_geom_subset_unionOut (l : List ResolvedRegion) :
    ∀ r ∈ l, r.geom ⊆ unionOut l := by
  induction l with
  | nil => simp
  | cons s t ih =>
    intro r hr
    rcases List.mem_cons.mp hr with h | h
    · subst h
      exact Finset.subset_union_left
    · exact (ih r h).trans Finset.subset_union_right

theorem inter_empty_of_inter_union_left {s a b : Region}
    (h : s ∩ (a ∪ b) = ∅) : s ∩ b = ∅ := by
  have hsub : s ∩ b ⊆ s ∩ (a ∪ b) :=
    Finset.inter_subset_inter (le_refl s) Finset.subset_union_right
  rw [h] at hsub
  exact Finset.subset_empty.mp hsub

theorem inter_empty_of_inter_union_right {s a b : Region}
    (h : s ∩ (a ∪ b) = ∅) : s ∩ a = ∅ := by
  have hsub : s ∩ a ⊆ s ∩ (a ∪ b) :=
    Finset.inter_subset_inter (le_refl s) Finset.subset_union_left
  rw [h] at hsub
  exact Finset.subset_empty.mp hsub

/-! ## Lemmas about the Overlap Resolver loop -/

/-- Every accepted region is non-empty and disjoint from the accumulator it
was produced under. -/
theorem mem_resolveStep (l : List BandRegion) :
    ∀ (acc : Region) (r : ResolvedRegion), r ∈ resolveStep acc l →
      r.geom ∩ acc = ∅ ∧ r.geom ≠ ∅ := by
  induction l with
  | nil => intro acc r h; simp [resolveStep] at h
  | cons p rest ih =>
    intro acc r h
    simp only [resolveStep] at h
    by_cases hr : p.geom \ acc = ∅
    · rw [if_pos hr] at h
      exact ih acc r h
    · rw [if_neg hr] at h
      rcases List.mem_cons.mp h with h1 | h2
      · subst h1
        exact ⟨Finset.sdiff_inter_self acc p.geom, hr⟩
      · have h3 := ih (acc ∪ (p.geom \ acc)) r h2
        exact ⟨inter_empty_of_inter_union_right h3.1, h3.2⟩

/-- Every accepted region originates from an input pair and keeps its tag. -/
theorem mem_resolveStep_src (l : List BandRegion) :
    ∀ (acc : Region) (r : ResolvedRegion), r ∈ resolveStep acc l →
      ∃ p ∈ l, r.tag = Tag.pair p.poi p.band ∧ r.geom ⊆ p.geom := by
  induction l with
  | nil => intro acc r h; simp [resolveStep] at h
  | cons p rest ih =>
    intro acc r h
    simp only [resolveStep] at h
    by_cases hr : p.geom \ acc = ∅
    · rw [if_pos hr] at h
      obtain ⟨q, hq, hq2⟩ := ih acc r h
      exact ⟨q, List.mem_cons_of_mem p hq, hq2⟩
    · rw [if_neg hr] at h
      rcases List.mem_cons.mp h with h1 | h2
      · subst h1
        exact ⟨p, List.mem_cons_self p rest, rfl, Finset.sdiff_subset⟩
      · obtain ⟨q, hq, hq2⟩ := ih (acc ∪ (p.geom \ acc)) r h2
        exact ⟨q, List.mem_cons_of_mem p hq, hq2⟩

/-- The accepted regions are pairwise disjoint. -/
theorem resolveStep_pairwise (l : List BandRegion) :
    ∀ acc : Region,
      List.Pairwise (fun r s : ResolvedRegion => r.geom ∩ s.geom = ∅)
        (resolveStep acc l) := by
  induction l with
  | nil => intro acc; simp [resolveStep]
  | cons p rest ih =>
    intro acc
    simp only [resolveStep]
    by_cases hr : p.geom \ acc = ∅
    · rw [if_pos hr]
      exact ih acc
    · rw [if_neg hr]
      refine List.Pairwise.cons ?_ (ih _)
      intro s hs
      have h := (mem_resolveStep rest _ s hs).1
      have h2 : s.geom ∩ (p.geom \ acc) = ∅ := inter_empty_of_inter_union_left h
      rw [Finset.inter_comm] at h2
      exact h2

/-- The explicit-accumulator loop implements the spec's description where
each pair's band region is reduced by the union of all previously accepted
regions. -/
theorem resolveSpecAux_eq (l : List BandRegion) :
    ∀ prev, resolveSpecAux prev l = resolveStep (unionOut prev) l := by
  induction l with
  | nil => intro prev; rfl
  | cons p rest ih =>
    intro prev
    simp only [resolveSpecAux, resolveStep]
    by_cases hr : p.geom \ unionOut prev = ∅
    · rw [if_pos hr, if_pos hr]
      exact ih prev
    · rw [if_neg hr, if_neg hr]
      rw [ih, unionOut_concat]

/-! ## Stability of the band ordering -/

theorem filter_orderedInsert (p : BandRegion) (b : Nat) :
    ∀ m : List BandRegion,
      (m.orderedInsert bandLE p).filter (fun q => q.band = b) =
        if p.band = b then p :: m.filter (fun q => q.band = b)
        else m.filter (fun q => q.band = b) := by
  intro m
  induction m with
  | nil =>
    by_cases hpb : p.band = b <;>
      simp [List.orderedInsert, List.filter_cons, hpb]
  | cons q t ih =>
    by_cases hpq : bandLE p q
    · rw [List.orderedInsert_of_le bandLE t hpq]
      by_cases hpb : p.band = b <;>
        simp [List.filter_cons, hpb]
    · have hins : (q :: t).orderedInsert bandLE p = q :: t.orderedInsert bandLE p := by
        simp [List.orderedInsert, hpq]
      rw [hins]
      by_cases hpb : p.band = b
      · have hq : ¬ q.band = b := by
          simp only [bandLE] at hpq
          omega
        simp [List.filter_cons, hq, hpb, ih]
      · by_cases hqb : q.band = b <;>
          simp [List.filter_cons, hqb, hpb, ih]

theorem orderPairs_filter (l : List BandRegion) (b : Nat) :
    (orderPairs l).filter (fun q => q.band = b) = l.filter (fun q => q.band = b) := by
  induction l with
  | nil => rfl
  | cons p t ih =>
    have : orderPairs (p :: t) = (orderPairs t).orderedInsert bandLE p := rfl
    rw [this, filter_orderedInsert]
    by_cases hpb : p.band = b <;> simp [List.filter_cons, hpb, ih]

/-! ## Claim C2: ordering and subtraction semantics of the Overlap Resolver -/

/-- C2: the Overlap Resolver (`difference_iso`) processes (POI, band) pairs
ordered by band index ascending, breaking same-band ties by insertion order
(the reordering is a permutation, is sorted by band, and restricted to any
single band equals the original insertion order), and each accepted resolved
region equals that pair's band region minus the union of all previously
accepted regions, accepted only when non-empty (`resolveSpecAux`). -/
theorem difference_iso_ordered_subtraction (l : List BandRegion) :
    difference_iso l = resolveSpecAux [] (orderPairs l) ∧
    (orderPairs l).Perm l ∧
    List.Sorted bandLE (orderPairs l) ∧
    ∀ b, (orderPairs l).filter (fun q => q.band = b) =
      l.filter (fun q => q.band = b) := by
  refine ⟨?_, List.perm_insertionSort bandLE l, List.sorted_insertionSort bandLE l,
    fun b => orderPairs_filter l b⟩
  rw [resolveSpecAux_eq]
  rfl

/-! ## Claim C4: subsumed same-band region is omitted -/

/-- C4: with a single shared band, if the earlier POI's band region fully
contains the later POI's, the resolver omits the later pair's region (valid,
not an error) and the earlier pair's resolved region covers the full union of
the two rings. -/
theorem difference_iso_subsumed (A B b : Nat) (gA gB : Region)
    (hsub : gB ⊆ gA) (hne : gA ≠ ∅) :
    difference_iso [⟨A, b, gA⟩, ⟨B, b, gB⟩] = [⟨Tag.pair A b, gA⟩] ∧
    gA = gA ∪ gB := by
  constructor
  · have hsort : List.Sorted bandLE [(⟨A, b, gA⟩ : BandRegion), ⟨B, b, gB⟩] := by
      simp [List.sorted_cons, bandLE]
    unfold difference_iso orderPairs
    rw [List.Sorted.insertionSort_eq hsort]
    have h1 : gA \ (∅ : Region) = gA := Finset.sdiff_empty
    have h2 : gB \ ((∅ : Region) ∪ gA) = ∅ := by
      rw [Finset.empty_union]
      exact Finset.sdiff_eq_empty_iff_subset.mpr hsub
    simp only [resolveStep, h1]
    rw [if_neg hne]
    simp [resolveStep, h2, hsub]
  · exact (Finset.union_eq_left.mpr hsub).symm

/-- Witness for C4 at a concrete input. -/
theorem difference_iso_subsumed_witness :
    difference_iso [⟨0, 10, {((0 : Int), (0 : Int)), ((1 : Int), (0 : Int))}⟩,
        ⟨1, 10, {((0 : Int), (0 : Int))}⟩] =
      [⟨Tag.pair 0 10, {((0 : Int), (0 : Int)), ((1 : Int), (0 : Int))}⟩] :=
  (difference_iso_subsumed 0 1 10
    {((0 : Int), (0 : Int)), ((1 : Int), (0 : Int))} {((0 : Int), (0 : Int))}
    (by decide) (by decide)).1

/-! ## Claim C5: nested bands of a single POI -/

/-- C5: for one POI with strictly nested rings 10 ⊂ 20 ⊂ 30 the resolver
yields ring(10), ring(20) − ring(10) and ring(30) − ring(20); the three are
pairwise disjoint (zero intersection area) and their union is ring(30). -/
theorem difference_iso_nested (P : Nat) (r10 r20 r30 : Region)
    (h0 : r10 ≠ ∅) (h12 : r10 ⊂ r20) (h23 : r20 ⊂ r30) :
    difference_iso [⟨P, 10, r10⟩, ⟨P, 20, r20⟩, ⟨P, 30, r30⟩] =
      [⟨Tag.pair P 10, r10⟩, ⟨Tag.pair P 20, r20 \ r10⟩,
        ⟨Tag.pair P 30, r30 \ r20⟩] ∧
    (r10 ∩ (r20 \ r10)).card = 0 ∧
    (r10 ∩ (r30 \ r20)).card = 0 ∧
    ((r20 \ r10) ∩ (r30 \ r20)).card = 0 ∧
    r10 ∪ (r20 \ r10) ∪ (r30 \ r20) = r30 := by
  have h12s : r10 ⊆ r20 := h12.subset
  have h23s : r20 ⊆ r30 := h23.subset
  have h12n : ¬ r20 ⊆ r10 := (Finset.ssubset_def.mp h12).2
  have h23n : ¬ r30 ⊆ r20 := (Finset.ssubset_def.mp h23).2
  refine ⟨?_, ?_, ?_, ?_, ?_⟩
  · have hsort : List.Sorted bandLE
        [(⟨P, 10, r10⟩ : BandRegion), ⟨P, 20, r20⟩, ⟨P, 30, r30⟩] := by
      simp [List.sorted_cons, bandLE]
    unfold difference_iso orderPairs
    rw [List.Sorted.insertionSort_eq hsort]
    have e1 : r10 \ (∅ : Region) = r10 := Finset.sdiff_empty
    have e2 : (∅ : Region) ∪ r10 = r10 := Finset.empty_union r10
    have e3 : r10 ∪ (r20 \ r10) = r20 := Finset.union_sdiff_of_subset h12s
    have n2 : ¬ r20 \ r10 = ∅ := fun h => h12n (Finset.sdiff_eq_empty_iff_subset.mp h)
    have n3 : ¬ r30 \ r20 = ∅ := fun h => h23n (Finset.sdiff_eq_empty_iff_subset.mp h)
    simp only [resolveStep, e1]
    rw [if_neg h0]
    simp only [resolveStep, e2]
    rw [if_neg n2]
    simp only [resolveStep, e3]
    rw [if_neg n3]
  · rw [Finset.inter_sdiff_self, Finset.card_empty]
  · have : r10 ∩ (r30 \ r20) ⊆ r20 ∩ (r30 \ r20) :=
      Finset.inter_subset_inter h12s (le_refl _)
    rw [Finset.inter_sdiff_self] at this
    rw [Finset.subset_empty.mp this, Finset.card_empty]
  · have : (r20 \ r10) ∩ (r30 \ r20) ⊆ r20 ∩ (r30 \ r20) :=
      Finset.inter_subset_inter Finset.sdiff_subset (le_refl _)
    rw [Finset.inter_sdiff_self] at this
    rw [Finset.subset_empty.mp this, Finset.card_empty]
  · rw [Finset.union_sdiff_of_subset h12s, Finset.union_sdiff_of_subset h23s]

/-- Witness for C5 at a concrete input. -/
theorem difference_iso_nested_witness :
    difference_iso
        [⟨7, 10, {((0 : Int), (0 : Int))}⟩,
          ⟨7, 20, {((0 : Int), (0 : Int)), ((1 : Int), (0 : Int))}⟩,
          ⟨7, 30, {((0 : Int), (0 : Int)), ((1 : Int), (0 : Int)),
            ((2 : Int), (0 : Int))}⟩] =
      [⟨Tag.pair 7 10, {((0 : Int), (0 : Int))}⟩,
        ⟨Tag.pair 7 20,
          {((0 : Int), (0 : Int)), ((1 : Int), (0 : Int))} \ {((0 : Int), (0 : Int))}⟩,
        ⟨Tag.pair 7 30,
          {((0 : Int), (0 : Int)), ((1 : Int), (0 : Int)), ((2 : Int), (0 : Int))} \
            {((0 : Int), (0 : Int)), ((1 : Int), (0 : Int))}⟩] :=
  (difference_iso_nested 7 {((0 : Int), (0 : Int))}
    {((0 : Int), (0 : Int)), ((1 : Int), (0 : Int))}
    {((0 : Int), (0 : Int)), ((1 : Int), (0 : Int)), ((2 : Int), (0 : Int))}
    (by decide) (by decide) (by decide)).1

/-! ## Lemmas about the Gap Filler -/

theorem unionOut_clip (res : List ResolvedRegion) (aoi : Region) :
    unionOut (res.map (fun r => ⟨r.tag, r.geom ∩ aoi⟩)) = unionOut res ∩ aoi := by
  induction res with
  | nil => simp [unionOut]
  | cons r t ih =>
    simp only [List.map_cons, unionOut, List.foldr_cons]
    rw [show (t.map (fun r => (⟨r.tag, r.geom ∩ aoi⟩ : ResolvedRegion))).foldr
        (fun r acc => r.geom ∪ acc) ∅ =
        unionOut (t.map (fun r => ⟨r.tag, r.geom ∩ aoi⟩)) from rfl, ih]
    exact (Finset.union_inter_distrib_right r.geom (unionOut t) aoi).symm

/-- The Gap Filler output always unions to exactly the AOI. -/
theorem fill_aoi_union (res : List ResolvedRegion) (aoi : Region) :
    unionOut (fill_aoi res aoi) = aoi := by
  unfold fill_aoi
  by_cases hres : aoi \ unionOut res = ∅
  · rw [if_pos hres, unionOut_clip]
    exact Finset.inter_eq_right.mpr (Finset.sdiff_eq_empty_iff_subset.mp hres)
  · rw [if_neg hres, unionOut_append, unionOut_clip]
    have h1 : unionOut [(⟨Tag.uncovered, aoi \ unionOut res⟩ : ResolvedRegion)] =
        aoi \ unionOut res := by simp [unionOut]
    rw [h1, Finset.inter_comm, Finset.union_comm, Finset.sdiff_union_inter]

/-- The Gap Filler preserves pairwise disjointness and keeps the residual
disjoint from the clipped regions. -/
theorem fill_aoi_pairwise (res : List ResolvedRegion) (aoi : Region)
    (hpw : List.Pairwise (fun r s : ResolvedRegion => r.geom ∩ s.geom = ∅) res) :
    List.Pairwise (fun r s : ResolvedRegion => r.geom ∩ s.geom = ∅)
      (fill_aoi res aoi) := by
  have hclip : List.Pairwise (fun r s : ResolvedRegion => r.geom ∩ s.geom = ∅)
      (res.map (fun r => ⟨r.tag, r.geom ∩ aoi⟩)) := by
    refine hpw.map _ (fun a b hab => ?_)
    have hsub : (a.geom ∩ aoi) ∩ (b.geom ∩ aoi) ⊆ a.geom ∩ b.geom :=
      Finset.inter_subset_inter Finset.inter_subset_left Finset.inter_subset_left
    rw [hab] at hsub
    exact Finset.subset_empty.mp hsub
  unfold fill_aoi
  by_cases hres : aoi \ unionOut res = ∅
  · rw [if_pos hres]
    exact hclip
  · rw [if_neg hres]
    rw [List.pairwise_append]
    refine ⟨hclip, List.pairwise_singleton _ _, ?_⟩
    intro a ha x hx
    rcases List.mem_singleton.mp hx with rfl
    obtain ⟨r, hr, rfl⟩ := List.mem_map.mp ha
    have hsub : (⟨r.tag, r.geom ∩ aoi⟩ : ResolvedRegion).geom ∩
        (aoi \ unionOut res) ⊆ unionOut res ∩ (aoi \ unionOut res) := by
      refine Finset.inter_subset_inter ?_ (le_refl _)
      exact Finset.inter_subset_left.trans (mem_geom_subset_unionOut res r hr)
    rw [Finset.inter_sdiff_self] at hsub
    exact Finset.subset_empty.mp hsub

/-! ## Claim C1: the resolved regions exactly tile the AOI -/

/-- C1: for every AOI and any set of resolved regions produced by the Gap
Filler from the Overlap Resolver's output, the union of all regions equals
the AOI (exactly, hence within any area tolerance) and the intersection area
of any two distinct regions is zero. -/
theorem fill_aoi_tiles_aoi (l : List BandRegion) (aoi : Region) :
    unionOut (fill_aoi (difference_iso l) aoi) = aoi ∧
    List.Pairwise (fun r s : ResolvedRegion => (r.geom ∩ s.geom).card = 0)
      (fill_aoi (difference_iso l) aoi) := by
  refine ⟨fill_aoi_union _ _, ?_⟩
  have h := fill_aoi_pairwise (difference_iso l) aoi
    (resolveStep_pairwise (orderPairs l) ∅)
  exact h.imp (fun hab => by rw [hab]; rfl)

/-! ## Claim C3: the residual "uncovered" region -/

/-- C3: the Gap Filler computes the residual AOI minus the union of the
resolved regions; when it is non-empty it appends exactly one additional
region tagged "uncovered" whose area is the AOI area minus the area of the
covered part (exactly, hence within tolerance); when it is empty it adds no
region. -/
theorem fill_aoi_residual_region (resolved : List ResolvedRegion) (aoi : Region) :
    (aoi \ unionOut resolved ≠ ∅ →
      (fill_aoi resolved aoi).map ResolvedRegion.tag =
        resolved.map ResolvedRegion.tag ++ [Tag.uncovered] ∧
      (fill_aoi resolved aoi).getLast? =
        some ⟨Tag.uncovered, aoi \ unionOut resolved⟩ ∧
      (aoi \ unionOut resolved).card + (aoi ∩ unionOut resolved).card = aoi.card ∧
      (unionOut resolved ⊆ aoi →
        (aoi \ unionOut resolved).card = aoi.card - (unionOut resolved).card)) ∧
    (aoi \ unionOut resolved = ∅ →
      (fill_aoi resolved aoi).map ResolvedRegion.tag =
        resolved.map ResolvedRegion.tag) := by
  constructor
  · intro hres
    refine ⟨?_, ?_, Finset.card_sdiff_add_card_inter aoi (unionOut resolved),
      fun hsub => Finset.card_sdiff hsub⟩
    · simp only [fill_aoi, if_neg hres, List.map_append, List.map_map]
      rfl
    · simp only [fill_aoi, if_neg hres]
      exact List.getLast?_concat _
  · intro hres
    simp only [fill_aoi, if_pos hres, List.map_map]
    rfl

/-- Witness for C3 at a concrete input (empty resolved set, one-cell AOI). -/
theorem fill_aoi_residual_region_witness :
    (fill_aoi ([] : List ResolvedRegion) {((0 : Int), (0 : Int))}).map
        ResolvedRegion.tag = [Tag.uncovered] ∧
    (fill_aoi ([] : List ResolvedRegion) {((0 : Int), (0 : Int))}).getLast? =
      some ⟨Tag.uncovered, {((0 : Int), (0 : Int))} \ unionOut []⟩ := by
  have h := (fill_aoi_residual_region [] {((0 : Int), (0 : Int))}).1 (by decide)
  exact ⟨h.1, h.2.1⟩

/-! ## Claim C6: idempotence of the Overlap Resolver -/

/-- Reading a resolved region back as a band region (input form of the
resolver); the "uncovered" tag never occurs in resolver output. -/
def toBandR (r : ResolvedRegion) : BandRegion :=
  match r.tag with
  | .pair p b => ⟨p, b, r.geom⟩
  | .uncovered => ⟨0, 0, r.geom⟩

/-- The band index carried by a resolved region's tag. -/
def bandOf (r : ResolvedRegion) : Nat := (toBandR r).band

/-- A resolver output taken again as input band regions. -/
def toBand (l : List ResolvedRegion) : List BandRegion := l.map toBandR

/-- Resolver output is sorted by band index when its input is. -/
theorem resolveStep_sorted (l : List BandRegion) :
    ∀ acc, List.Sorted bandLE l →
      List.Sorted (fun r s : ResolvedRegion => bandOf r ≤ bandOf s)
        (resolveStep acc l) := by
  induction l with
  | nil => intro acc _; simp [resolveStep]
  | cons p rest ih =>
    intro acc hs
    rw [List.sorted_cons] at hs
    simp only [resolveStep]
    by_cases hr : p.geom \ acc = ∅
    · rw [if_pos hr]
      exact ih acc hs.2
    · rw [if_neg hr]
      rw [List.sorted_cons]
      refine ⟨?_, ih _ hs.2⟩
      intro s hsmem
      obtain ⟨q, hq, htagq, _⟩ := mem_resolveStep_src rest _ s hsmem
      have h1 : bandOf s = q.band := by simp [bandOf, toBandR, htagq]
      have h2 : bandOf ⟨Tag.pair p.poi p.band, p.geom \ acc⟩ = p.band := by
        simp [bandOf, toBandR]
      rw [h1, h2]
      exact hs.1 q hq

/-- Running the resolver loop on an already-disjoint list of non-empty
pair-tagged regions returns that list unchanged. -/
theorem resolveStep_id (out : List ResolvedRegion) :
    ∀ acc,
      List.Pairwise (fun r s : ResolvedRegion => r.geom ∩ s.geom = ∅) out →
      (∀ r ∈ out, r.geom ≠ ∅) →
      (∀ r ∈ out, r.geom ∩ acc = ∅) →
      (∀ r ∈ out, ∃ p b, r.tag = Tag.pair p b) →
      resolveStep acc (toBand out) = out := by
  induction out with
  | nil => intro acc _ _ _ _; rfl
  | cons r t ih =>
    intro acc hpw hne hacc htag
    obtain ⟨p, b, htagr⟩ := htag r (List.mem_cons_self r t)
    have htb : toBandR r = ⟨p, b, r.geom⟩ := by simp [toBandR, htagr]
    have hd : r.geom \ acc = r.geom :=
      Finset.sdiff_eq_self_iff_disjoint.mpr
        (Finset.disjoint_iff_inter_eq_empty.mpr (hacc r (List.mem_cons_self r t)))
    have hpwc := List.pairwise_cons.mp hpw
    show resolveStep acc (toBandR r :: toBand t) = r :: t
    rw [htb]
    simp only [resolveStep]
    rw [hd, if_neg (hne r (List.mem_cons_self r t))]
    have hrr : (⟨Tag.pair p b, r.geom⟩ : ResolvedRegion) = r := by
      cases r with
      | mk tg gm =>
        simp only at htagr
        rw [htagr]
    rw [hrr]
    congr 1
    refine ih (acc ∪ r.geom) hpwc.2 (fun s hs => hne s (List.mem_cons_of_mem r hs))
      ?_ (fun s hs => htag s (List.mem_cons_of_mem r hs))
    intro s hs
    have e1 : s.geom ∩ acc = ∅ := hacc s (List.mem_cons_of_mem r hs)
    have e2 : s.geom ∩ r.geom = ∅ := by
      have := hpwc.1 s hs
      rw [Finset.inter_comm] at this
      exact this
    rw [Finset.inter_union_distrib_left s.geom acc r.geom, e1, e2]
    simp

/-- C6: running the Overlap Resolver again on its own (already-disjoint)
output, taken as input band regions, yields the same partition unchanged. -/
theorem difference_iso_idempotent (l : List BandRegion) :
    difference_iso (toBand (difference_iso l)) = difference_iso l := by
  have hpw : List.Pairwise (fun r s : ResolvedRegion => r.geom ∩ s.geom = ∅)
      (difference_iso l) := resolveStep_pairwise (orderPairs l) ∅
  have hne : ∀ r ∈ difference_iso l, r.geom ≠ ∅ :=
    fun r h => (mem_resolveStep (orderPairs l) ∅ r h).2
  have hacc : ∀ r ∈ difference_iso l, r.geom ∩ (∅ : Region) = ∅ :=
    fun r _ => Finset.inter_empty r.geom
  have htag : ∀ r ∈ difference_iso l, ∃ p b, r.tag = Tag.pair p b := by
    intro r h
    obtain ⟨q, _, ht, _⟩ := mem_resolveStep_src (orderPairs l) ∅ r h
    exact ⟨q.poi, q.band, ht⟩
  have hsorted : List.Sorted (fun r s : ResolvedRegion => bandOf r ≤ bandOf s)
      (difference_iso l) :=
    resolveStep_sorted (orderPairs l) ∅ (List.sorted_insertionSort bandLE l)
  have hsb : List.Sorted bandLE (toBand (difference_iso l)) :=
    hsorted.map toBandR (fun a b h => h)
  have h1 : orderPairs (toBand (difference_iso l)) = toBand (difference_iso l) :=
    List.Sorted.insertionSort_eq hsb
  calc difference_iso (toBand (difference_iso l))
      = resolveStep ∅ (orderPairs (toBand (difference_iso l))) := rfl
    _ = resolveStep ∅ (toBand (difference_iso l)) := by rw [h1]
    _ = difference_iso l := resolveStep_id (difference_iso l) ∅ hpw hne hacc htag

/-! ## Lemmas about the Population Aggregator -/

theorem loadRaster_error_val (folder : RasterFolder) (k : Nat) (e : PopError)
    (h : loadRaster folder k = .error e) : e = .PopulationDataError k := by
  unfold loadRaster at h
  cases hl : List.lookup k folder with
  | none =>
    rw [hl] at h
    simp only [Except.error.injEq] at h
    exact h.symm
  | some o =>
    cases o with
    | none =>
      rw [hl] at h
      simp only [Except.error.injEq] at h
      exact h.symm
    | some r =>
      rw [hl] at h
      simp at h

theorem catTotal_eq_none_iff (folder : RasterFolder) (k : Nat) (g : Region) :
    catTotal folder k g = none ↔
      loadRaster folder k = .error (.PopulationDataError k) := by
  unfold catTotal
  cases h : loadRaster folder k with
  | ok r => simp [h]
  | error e =>
    have he := loadRaster_error_val folder k e h
    subst he
    simp [h]

theorem loadRaster_error_iff (folder : RasterFolder) (k : Nat) :
    loadRaster folder k = .error (.PopulationDataError k) ↔
      (List.lookup k folder = none ∨ List.lookup k folder = some none) := by
  unfold loadRaster
  cases hl : List.lookup k folder with
  | none => simp
  | some o => cases o with
    | none => simp
    | some r => simp

theorem popSum_filter (r : Raster) (g : Region) :
    popSum r g = (g.filter (fun c => (r c).isSome)).sum (fun c => (r c).getD 0) := by
  unfold popSum
  rw [← Finset.sum_filter_add_sum_filter_not g (fun c => (r c).isSome = true)
    (fun c => (r c).getD 0)]
  have hz : (g.filter (fun c => ¬ (r c).isSome = true)).sum
      (fun c => (r c).getD 0) = 0 := by
    apply Finset.sum_eq_zero
    intro c hc
    have hcc := (Finset.mem_filter.mp hc).2
    cases hrc : r c with
    | none => simp [hrc]
    | some v => rw [hrc] at hcc; simp at hcc
  rw [hz, add_zero]

/-! ## Claim C7: partial failure semantics of the Population Aggregator -/

/-- C7: the aggregator processes every region (the batch is never halted);
a requested category is reported "unavailable" (`none`) for a region exactly
when loading its raster fails with `PopulationDataError`, which happens
exactly when the raster is missing or corrupt; and no-data raster cells are
excluded from the population sum. -/
theorem add_population_data_partial_failure (regions : List ResolvedRegion)
    (folder : RasterFolder) (cats : List Nat) :
    (add_population_data regions folder cats).map Summary.tag =
      regions.map ResolvedRegion.tag ∧
    (∀ s ∈ add_population_data regions folder cats, ∀ k ∈ cats,
      ((k, (none : Option Nat)) ∈ s.perCat ↔
        loadRaster folder k = .error (.PopulationDataError k))) ∧
    (∀ k, loadRaster folder k = .error (.PopulationDataError k) ↔
      (List.lookup k folder = none ∨ List.lookup k folder = some none)) ∧
    (∀ (r : Raster) (g : Region),
      popSum r g =
        (g.filter (fun c => (r c).isSome)).sum (fun c => (r c).getD 0)) := by
  refine ⟨?_, ?_, fun k => loadRaster_error_iff folder k,
    fun r g => popSum_filter r g⟩
  · unfold add_population_data
    rw [List.map_map]
    rfl
  · intro s hs k hk
    unfold add_population_data at hs
    obtain ⟨reg, hreg, rfl⟩ := List.mem_map.mp hs
    dsimp only
    constructor
    · intro hmem
      obtain ⟨k1, hk1, heq⟩ := List.mem_map.mp hmem
      obtain ⟨hkk, hnone⟩ := Prod.mk.injEq .. ▸ heq
      subst hkk
      exact (catTotal_eq_none_iff folder k1 reg.geom).mp hnone
    · intro herr
      apply List.mem_map.mpr
      refine ⟨k, hk, ?_⟩
      rw [(catTotal_eq_none_iff folder k reg.geom).mpr herr]

/-- Witness for C7 at a concrete input: one region, an aggregate raster
under key 0, category 1 corrupt, category 2 missing. -/
theorem add_population_data_partial_failure_witness :
    ∀ s ∈ add_population_data [⟨Tag.uncovered, {((0 : Int), (0 : Int))}⟩]
        [(aggKey, some (fun _ => some 5)), (1, none)] [1, 2],
      ((1, (none : Option Nat)) ∈ s.perCat ↔
        loadRaster [(aggKey, some (fun _ => some 5)), (1, none)] 1 =
          .error (.PopulationDataError 1)) := by
  intro s hs
  exact (add_population_data_partial_failure
    [⟨Tag.uncovered, {((0 : Int), (0 : Int))}⟩]
    [(aggKey, some (fun _ => some 5)), (1, none)] [1, 2]).2.1 s hs 1
    (List.mem_cons_self 1 [2])

/-! ## Claim C8: additivity of disaggregated population totals -/

theorem sum_popSum_exchange (catR : Nat → Raster) (g : Region) :
    ∀ cats : List Nat, (cats.map (fun k => popSum (catR k) g)).sum =
      g.sum (fun c => (cats.map (fun k => ((catR k) c).getD 0)).sum) := by
  intro cats
  induction cats with
  | nil => simp
  | cons k t ih =>
    simp only [List.map_cons, List.sum_cons]
    rw [ih, Finset.sum_add_distrib]
    rfl

/-- C8: when the aggregate raster and every requested category raster load
and the rasters are cell-wise consistent, the sum of the per-category totals
equals the aggregate total exactly (hence within the documented tolerance),
and the discrepancy is reported as a computed delta (`some 0`), not as an
error. -/
theorem add_population_data_additivity (regions : List ResolvedRegion)
    (folder : RasterFolder) (cats : List Nat) (aggR : Raster) (catR : Nat → Raster)
    (h1 : loadRaster folder aggKey = .ok aggR)
    (h2 : ∀ k ∈ cats, loadRaster folder k = .ok (catR k))
    (h3 : ∀ c : Cell, (aggR c).getD 0 =
      (cats.map (fun k => ((catR k) c).getD 0)).sum) :
    ∀ s ∈ add_population_data regions folder cats,
      s.total = some (popSum aggR s.geom) ∧
      (s.perCat.map (fun kv => kv.2.getD 0)).sum = popSum aggR s.geom ∧
      s.delta = some 0 ∧
      (0 : Int).natAbs ≤ popTolerance (popSum aggR s.geom) := by
  intro s hs
  unfold add_population_data at hs
  obtain ⟨reg, hreg, rfl⟩ := List.mem_map.mp hs
  dsimp only
  have htot : catTotal folder aggKey reg.geom = some (popSum aggR reg.geom) := by
    unfold catTotal
    rw [h1]
  have hper : cats.map (fun k => (k, catTotal folder k reg.geom)) =
      cats.map (fun k => (k, some (popSum (catR k) reg.geom))) := by
    apply List.map_congr_left
    intro k hk
    unfold catTotal
    rw [h2 k hk]
  have hsum : ((cats.map (fun k => ((k : Nat),
      some (popSum (catR k) reg.geom)))).map (fun kv => kv.2.getD 0)).sum =
      popSum aggR reg.geom := by
    rw [List.map_map]
    have hcomp : ((fun kv : Nat × Option Nat => kv.2.getD 0) ∘
        (fun k => ((k : Nat), some (popSum (catR k) reg.geom)))) =
        fun k => popSum (catR k) reg.geom := rfl
    rw [hcomp, sum_popSum_exchange catR reg.geom cats]
    unfold popSum
    apply Finset.sum_congr rfl
    intro c _
    exact (h3 c).symm
  have hall : (cats.map (fun k => ((k : Nat),
      some (popSum (catR k) reg.geom)))).all (fun kv => kv.2.isSome) = true := by
    rw [List.all_eq_true]
    intro kv hkv
    obtain ⟨k, hk, rfl⟩ := List.mem_map.mp hkv
    rfl
  refine ⟨htot, ?_, ?_, Nat.zero_le _⟩
  · rw [hper]
    exact hsum
  · rw [htot, hper]
    dsimp only
    rw [if_pos hall]
    have hint : ((cats.map (fun k => ((k : Nat),
        some (popSum (catR k) reg.geom)))).map
        (fun kv => ((kv.2.getD 0 : Nat) : Int))).sum =
        ((popSum aggR reg.geom : Nat) : Int) := by
      have hmm : (cats.map (fun k => ((k : Nat),
          some (popSum (catR k) reg.geom)))).map
          (fun kv => ((kv.2.getD 0 : Nat) : Int)) =
          ((cats.map (fun k => ((k : Nat),
            some (popSum (catR k) reg.geom)))).map
            (fun kv => kv.2.getD 0)).map (fun n : Nat => (n : Int)) := by
        simp only [List.map_map]
        rfl
      rw [hmm, ← Nat.cast_list_sum, hsum]
    rw [hint]
    simp

/-- Raster and folder fixtures for the C8 witness. -/
def wAggRaster : Raster := fun _ => some 3

def wCat1Raster : Raster := fun _ => some 1

def wCat2Raster : Raster := fun _ => some 2

def wCatR : Nat → Raster := fun k => if k = 1 then wCat1Raster else wCat2Raster

def wFolder : RasterFolder :=
  [(aggKey, some wAggRaster), (1, some wCat1Raster), (2, some wCat2Raster)]

def wRegions : List ResolvedRegion := [⟨Tag.uncovered, {((0 : Int), (0 : Int))}⟩]

/-- Witness for C8 at a concrete input. -/
theorem add_population_data_additivity_witness :
    (add_population_data wRegions wFolder [1, 2]).map Summary.delta = [some 0] := by
  have h := add_population_data_additivity wRegions wFolder [1, 2] wAggRaster wCatR
    rfl
    (by
      intro k hk
      simp only [List.mem_cons, List.mem_singleton] at hk
      rcases hk with rfl | rfl | hk
      · rfl
      · rfl
      · simp at hk)
    (fun c => rfl)
  cases hE : add_population_data wRegions wFolder [1, 2] with
  | nil => exact absurd hE (by simp [add_population_data, wRegions])
  | cons s t =>
    have hlen : (add_population_data wRegions wFolder [1, 2]).length = 1 := by
      simp [add_population_data, wRegions]
    rw [hE] at hlen
    have ht : t = [] := by
      simp only [List.length_cons] at hlen
      exact List.eq_nil_of_length_eq_zero (by omega)
    subst ht
    have hs : s ∈ add_population_data wRegions wFolder [1, 2] := by
      rw [hE]
      exact List.mem_singleton_self s
    have hdelta := (h s hs).2.2.1
    simp [hdelta]

/-! ## Claim C9: the Geometry Normalizer contract -/

theorem normalizeCollection_error_iff (g : GeomCollection) :
    normalizeCollection g = .error .InvalidGeometryError ↔ invalidGeom g = true := by
  unfold normalizeCollection
  by_cases h : invalidGeom g <;> simp [h]

theorem invalidGeom_iff (g : GeomCollection) :
    invalidGeom g = true ↔
      (g.geoms = [] ∨ (∃ r ∈ g.geoms, r = ∅) ∨ g.irreparable = true ∨
        g.crs = none) := by
  unfold invalidGeom
  simp [List.isEmpty_iff, List.any_eq_true, Option.isNone_iff_eq_none,
    Bool.or_eq_true, decide_eq_true_eq]
  tauto

/-- C9: the Geometry Normalizer fails with `InvalidGeometryError` if and only
if a geometry collection is empty, has an empty member (irreparably
self-intersecting is the `irreparable` flag), or is missing a coordinate
reference; on success it returns a copy of the input geometries reprojected
into the single working coordinate system, which is projected, never
geographic, and the input collection is left untouched (pure copies). -/
theorem normalizer_contract (g : GeomCollection) :
    (normalizeCollection g = .error .InvalidGeometryError ↔
      (g.geoms = [] ∨ (∃ r ∈ g.geoms, r = ∅) ∨ g.irreparable = true ∨
        g.crs = none)) ∧
    (∀ n, normalizeCollection g = .ok n →
      n.crs = workingCRS ∧ n.crs.isProjected = true ∧ n.geoms = g.geoms) ∧
    prep_user_poi g = normalizeCollection g ∧
    create_aoi_gpd g = normalizeCollection g := by
  refine ⟨(normalizeCollection_error_iff g).trans (invalidGeom_iff g), ?_, rfl, rfl⟩
  intro n hn
  unfold normalizeCollection at hn
  by_cases h : invalidGeom g
  · simp [h] at hn
  · simp only [h, Bool.false_eq_true, if_false, Except.ok.injEq] at hn
    rw [← hn]
    exact ⟨rfl, rfl, rfl⟩

/-- Geometry fixtures for the C9 witness. -/
def wGeomRegion : Region := {((0 : Int), (0 : Int))}

def wPoiColl : GeomCollection := ⟨some (.geographic 4326), [wGeomRegion], false⟩

/-- Witness for C9 at a concrete valid input. -/
theorem normalizer_contract_witness :
    normalizeCollection wPoiColl = .ok ⟨workingCRS, [wGeomRegion]⟩ ∧
    workingCRS.isProjected = true := by
  have h := (normalizer_contract wPoiColl).2.1 ⟨workingCRS, [wGeomRegion]⟩ rfl
  exact ⟨rfl, h.2.1⟩

/-! ## Claim C10: `run_analysis` equals the composed pipeline -/

/-- C10: running the whole analysis in one function (with population data
requested) produces exactly the region table obtained by composing the
individual pipeline steps on the same inputs. -/
theorem run_analysis_composes (pois : List Nat) (fetch : Nat → List (Nat × Region))
    (aoi : Region) (folder : RasterFolder) (cats : List Nat) :
    run_analysis pois fetch aoi true folder cats =
      add_population_data
        (fill_aoi (difference_iso (dissolve_iso (get_isochrones pois fetch))) aoi)
        folder cats := rfl

end Proximity
